import Mathlib

/-!
Verification of the command-execution and streaming-output pipeline of the
git-mastery Electron shell.  The definitions below are shallow embeddings of
the TypeScript source (`src/main.ts`, streaming `execute-command` handler, and
the renderer's `resolvePath` / `parseOutputForCd` helpers).  Text is modelled
as `List Char`.
-/

set_option maxHeartbeats 1000000

namespace GitMasteryShell

/-- Push a character onto the head segment of a split result (helper for the
splitters below). -/
def consHead (c : Char) : List (List Char) → List (List Char)
  | [] => [[c]]
  | seg :: segs => (c :: seg) :: segs

/-- Embedding of `String.prototype.split(/\r?\n/)` as used by the stdout/stderr data
handlers of the streaming `execute-command` handler (`main.ts` lines 632 and
648): scanning left to right, `\r\n` is consumed as one separator, a lone
`\n` as one separator, and every other character (including a `\r` not
followed by `\n`) belongs to the current segment. -/
def splitLines : List Char → List (List Char)
  | [] => [[]]
  | [c] => if c = '\n' then [[], []] else [[c]]
  | c1 :: c2 :: rest =>
    if c1 = '\n' then [] :: splitLines (c2 :: rest)
    else if c1 = '\r' ∧ c2 = '\n' then [] :: splitLines rest
    else consHead c1 (splitLines (c2 :: rest))

theorem consHead_ne_nil (c : Char) (L : List (List Char)) : consHead c L ≠ [] := by
  cases L <;> simp [consHead]

theorem splitLines_nil : splitLines [] = [[]] := rfl

theorem splitLines_single (c : Char) (h : c ≠ '\n') : splitLines [c] = [[c]] := by
  simp [splitLines, h]

theorem splitLines_single_nl : splitLines ['\n'] = [[], []] := by
  simp [splitLines]

theorem splitLines_nl (c2 : Char) (rest : List Char) :
    splitLines ('\n' :: c2 :: rest) = [] :: splitLines (c2 :: rest) := by
  simp [splitLines]

theorem splitLines_crlf (rest : List Char) :
    splitLines ('\r' :: '\n' :: rest) = [] :: splitLines rest := by
  simp [splitLines]

theorem splitLines_other (c1 c2 : Char) (rest : List Char) (h1 : c1 ≠ '\n')
    (h2 : ¬(c1 = '\r' ∧ c2 = '\n')) :
    splitLines (c1 :: c2 :: rest) = consHead c1 (splitLines (c2 :: rest)) := by
  simp [splitLines, h1, h2]

theorem splitLines_ne_nil (l : List Char) : splitLines l ≠ [] := by
  induction l using splitLines.induct with
  | case1 => simp [splitLines_nil]
  | case2 => simp [splitLines_single_nl]
  | case3 c h => simp [splitLines_single c h]
  | case4 c2 rest ih => simp [splitLines_nl]
  | case5 c1 c2 rest h1 h2 ih =>
    obtain ⟨rfl, rfl⟩ := h2
    simp [splitLines_crlf]
  | case6 c1 c2 rest h1 h2 ih =>
    rw [splitLines_other c1 c2 rest h1 h2]
    exact consHead_ne_nil c1 _

theorem splitLines_eq_singleton_nil (l : List Char) (h : splitLines l = [[]]) :
    l = [] := by
  cases l with
  | nil => rfl
  | cons c rest =>
    exfalso
    cases rest with
    | nil =>
      by_cases hc : c = '\n'
      · subst hc; rw [splitLines_single_nl] at h; simp at h
      · rw [splitLines_single c hc] at h; simp at h
    | cons c2 rest2 =>
      by_cases h1 : c = '\n'
      · subst h1
        rw [splitLines_nl] at h
        simp at h
        exact splitLines_ne_nil _ h
      · by_cases h2 : c = '\r' ∧ c2 = '\n'
        · obtain ⟨rfl, rfl⟩ := h2
          rw [splitLines_crlf] at h
          simp at h
          exact splitLines_ne_nil _ h
        · rw [splitLines_other c c2 rest2 h1 h2] at h
          cases hS : splitLines (c2 :: rest2) with
          | nil => exact splitLines_ne_nil _ hS
          | cons s segs =>
            rw [hS, consHead] at h
            simp at h

/-- If the split of a nonempty list is a single segment, that segment starts
with the list's first character. -/
theorem splitLines_singleton_head (c : Char) (l s : List Char)
    (h : splitLines (c :: l) = [s]) : ∃ t, s = c :: t := by
  cases l with
  | nil =>
    by_cases hc : c = '\n'
    · subst hc; rw [splitLines_single_nl] at h; simp at h
    · rw [splitLines_single c hc] at h
      simp at h
      exact ⟨[], h.symm⟩
  | cons c2 rest =>
    by_cases h1 : c = '\n'
    · subst h1
      rw [splitLines_nl] at h
      simp at h
      exact absurd h.2 (splitLines_ne_nil _)
    · by_cases h2 : c = '\r' ∧ c2 = '\n'
      · obtain ⟨rfl, rfl⟩ := h2
        rw [splitLines_crlf] at h
        simp at h
        exact absurd h.2 (splitLines_ne_nil _)
      · rw [splitLines_other c c2 rest h1 h2] at h
        cases hS : splitLines (c2 :: rest) with
        | nil => exact absurd hS (splitLines_ne_nil _)
        | cons s1 segs =>
          rw [hS, consHead] at h
          simp at h
          exact ⟨s1, h.1.symm⟩

/-- No segment produced by the splitter contains a newline character. -/
theorem splitLines_no_newline (l : List Char) :
    ∀ seg ∈ splitLines l, '\n' ∉ seg := by
  induction l using splitLines.induct with
  | case1 => simp [splitLines_nil]
  | case2 => simp [splitLines_single_nl]
  | case3 c h =>
    simp [splitLines_single c h]
    exact fun hmem => h hmem.symm
  | case4 c2 rest ih =>
    rw [splitLines_nl]
    intro seg hseg
    rcases List.mem_cons.mp hseg with h | h
    · simp [h]
    · exact ih seg h
  | case5 c1 c2 rest h1 h2 ih =>
    obtain ⟨rfl, rfl⟩ := h2
    rw [splitLines_crlf]
    intro seg hseg
    rcases List.mem_cons.mp hseg with h | h
    · simp [h]
    · exact ih seg h
  | case6 c1 c2 rest h1 h2 ih =>
    rw [splitLines_other c1 c2 rest h1 h2]
    intro seg hseg
    cases hS : splitLines (c2 :: rest) with
    | nil => exact absurd hS (splitLines_ne_nil _)
    | cons s segs =>
      rw [hS, consHead] at hseg
      rcases List.mem_cons.mp hseg with h | h
      · subst h
        intro hmem
        rcases List.mem_cons.mp hmem with h | h
        · exact h1 h.symm
        · exact ih s (by rw [hS]; exact List.mem_cons_self s segs) h
      · exact ih seg (by rw [hS]; exact List.mem_cons_of_mem s h)

/-- A chunk without newline is kept whole by the splitter. -/
theorem splitLines_of_no_newline (l : List Char) (h : '\n' ∉ l) :
    splitLines l = [l] := by
  induction l using splitLines.induct with
  | case1 => rfl
  | case2 => simp at h
  | case3 c hc => exact splitLines_single c hc
  | case4 c2 rest ih => simp at h
  | case5 c1 c2 rest h1 h2 ih =>
    obtain ⟨rfl, rfl⟩ := h2
    simp at h
  | case6 c1 c2 rest h1 h2 ih =>
    rw [splitLines_other c1 c2 rest h1 h2]
    rw [ih (fun hmem => h (List.mem_cons_of_mem c1 hmem))]
    rfl

theorem getLastD_irrel {α : Type} (B : List α) (h : B ≠ []) (d1 d2 : α) :
    B.getLastD d1 = B.getLastD d2 := by
  cases B with
  | nil => exact absurd rfl h
  | cons b bs => rw [List.getLastD_cons, List.getLastD_cons]

theorem getLastD_append_of_ne_nil {α : Type} (A B : List α) (d : α) (h : B ≠ []) :
    (A ++ B).getLastD d = B.getLastD d := by
  induction A with
  | nil => rfl
  | cons a A ih =>
    rw [List.cons_append, List.getLastD_cons,
      getLastD_irrel (A ++ B) (fun hEq => h (List.append_eq_nil.mp hEq).2) a d, ih]

/-- Splitting a concatenation: the segments of `x ++ y` are the complete
segments of `x` followed by the segments obtained by re-splitting the
unterminated remainder of `x` glued to `y`.  This is exactly why the data
handlers of `main.ts` can re-split `buffer + chunk` from scratch on every
chunk. -/
theorem splitLines_append (x y : List Char) :
    splitLines (x ++ y) =
      (splitLines x).dropLast ++ splitLines ((splitLines x).getLastD [] ++ y) := by
  induction x using splitLines.induct with
  | case1 => simp [splitLines_nil]
  | case2 =>
    cases y with
    | nil => simp [splitLines_single_nl, splitLines_nil]
    | cons a ys =>
      rw [show ['\n'] ++ (a :: ys) = '\n' :: a :: ys from rfl, splitLines_nl,
        splitLines_single_nl]
      simp
  | case3 c hc => simp [splitLines_single c hc]
  | case4 c2 rest ih =>
    simp only [List.cons_append] at ih ⊢
    rw [splitLines_nl, ih, splitLines_nl]
    cases hS : splitLines (c2 :: rest) with
    | nil => exact absurd hS (splitLines_ne_nil _)
    | cons s segs => simp [List.getLastD_cons]
  | case5 c1 c2 rest h1 h2 ih =>
    obtain ⟨rfl, rfl⟩ := h2
    simp only [List.cons_append] at ih ⊢
    rw [splitLines_crlf, ih, splitLines_crlf]
    cases hS : splitLines rest with
    | nil => exact absurd hS (splitLines_ne_nil _)
    | cons s segs => simp [List.getLastD_cons]
  | case6 c1 c2 rest h1 h2 ih =>
    simp only [List.cons_append] at ih ⊢
    rw [splitLines_other c1 c2 (rest ++ y) h1 h2, ih,
      splitLines_other c1 c2 rest h1 h2]
    cases hS : splitLines (c2 :: rest) with
    | nil => exact absurd hS (splitLines_ne_nil _)
    | cons s segs =>
      cases segs with
      | nil =>
        obtain ⟨t, rfl⟩ := splitLines_singleton_head c2 rest s hS
        rw [show consHead c1 [c2 :: t] = [c1 :: c2 :: t] from rfl]
        simp only [List.dropLast_single, List.getLastD_cons, List.getLastD_nil,
          List.nil_append, List.cons_append]
        rw [splitLines_other c1 c2 (t ++ y) h1 h2]
      | cons s2 segs2 =>
        simp only [consHead, List.dropLast_cons₂, List.getLastD_cons,
          List.cons_append]

/-- State of one stream's line framer: the lines already emitted as
`command-output-line` events, and the unterminated remainder held in the
`stdoutBuffer`/`stderrBuffer` variable (`main.ts` lines 622-623). -/
structure Framer where
  emitted : List (List Char)
  buffer : List Char
  deriving DecidableEq

def initFramer : Framer := ⟨[], []⟩

/-- One `data` event of the streaming handler (`main.ts` lines 627-640):
append the chunk to the buffer, split on `\r?\n`, keep the last (incomplete)
segment as the new buffer, and emit every other segment that is non-empty
(the `if (line)` check drops empty lines). -/
def feed (f : Framer) (chunk : List Char) : Framer :=
  { emitted := f.emitted ++
      ((splitLines (f.buffer ++ chunk)).dropLast.filter fun l => !l.isEmpty),
    buffer := (splitLines (f.buffer ++ chunk)).getLastD [] }

/-- The final flush in the `close` handler (`main.ts` lines 672-677): the
buffer is emitted as one final line when non-empty.  Returns the full
sequence of lines emitted over the stream's lifetime. -/
def flushFramer (f : Framer) : List (List Char) :=
  f.emitted ++ if f.buffer.isEmpty then [] else [f.buffer]

/-- Feeding a whole sequence of chunks, in order. -/
def feedAll (f : Framer) (chunks : List (List Char)) : Framer :=
  chunks.foldl feed f

theorem feed_feed (f : Framer) (c1 c2 : List Char) :
    feed (feed f c1) c2 = feed f (c1 ++ c2) := by
  simp only [feed, Framer.mk.injEq]
  rw [show f.buffer ++ (c1 ++ c2) = f.buffer ++ c1 ++ c2 from
        (List.append_assoc _ _ _).symm,
    splitLines_append (f.buffer ++ c1) c2,
    List.dropLast_append_of_ne_nil _ (splitLines_ne_nil _),
    getLastD_append_of_ne_nil _ _ _ (splitLines_ne_nil _)]
  constructor
  · rw [List.filter_append, List.append_assoc]
  · rfl

theorem feed_buffer_no_newline (f : Framer) (c : List Char) :
    '\n' ∉ (feed f c).buffer := by
  simp only [feed]
  cases hS : splitLines (f.buffer ++ c) with
  | nil => exact absurd hS (splitLines_ne_nil _)
  | cons s segs =>
    rw [List.getLastD_cons]
    exact splitLines_no_newline (f.buffer ++ c) _
      (by rw [hS]; exact List.getLastD_mem_cons segs s)

theorem feed_nil (f : Framer) (h : '\n' ∉ f.buffer) : feed f [] = f := by
  obtain ⟨em, buf⟩ := f
  simp only [feed, List.append_nil]
  rw [splitLines_of_no_newline buf h]
  simp [List.dropLast_single, List.getLastD_cons, List.getLastD_nil]

/-- Feeding chunks one at a time is the same as feeding their concatenation
at once, provided the starting buffer holds no newline (an invariant of every
reachable framer state). -/
theorem feedAll_eq_feed_flatten (chunks : List (List Char)) (f : Framer)
    (h : '\n' ∉ f.buffer) : feedAll f chunks = feed f chunks.flatten := by
  induction chunks generalizing f with
  | nil => exact (feed_nil f h).symm
  | cons c cs ih =>
    show feedAll (feed f c) cs = _
    rw [ih (feed f c) (feed_buffer_no_newline f c), feed_feed,
      List.flatten_cons]

/-- The character content of a stream with all line terminators removed:
each `\r\n` pair and each lone `\n` is deleted; a `\r` not followed by `\n`
is ordinary content. -/
def stripTerm : List Char → List Char
  | [] => []
  | [c] => if c = '\n' then [] else [c]
  | c1 :: c2 :: rest =>
    if c1 = '\n' then stripTerm (c2 :: rest)
    else if c1 = '\r' ∧ c2 = '\n' then stripTerm rest
    else c1 :: stripTerm (c2 :: rest)

theorem flatten_consHead (c : Char) (L : List (List Char)) (h : L ≠ []) :
    (consHead c L).flatten = c :: L.flatten := by
  cases L with
  | nil => exact absurd rfl h
  | cons s segs => simp [consHead]

theorem flatten_splitLines (l : List Char) : (splitLines l).flatten = stripTerm l := by
  induction l using splitLines.induct with
  | case1 => rfl
  | case2 => rfl
  | case3 c hc => simp [splitLines_single c hc, stripTerm, hc]
  | case4 c2 rest ih =>
    rw [splitLines_nl]
    simpa [stripTerm] using ih
  | case5 c1 c2 rest h1 h2 ih =>
    obtain ⟨rfl, rfl⟩ := h2
    rw [splitLines_crlf]
    simpa [stripTerm] using ih
  | case6 c1 c2 rest h1 h2 ih =>
    rw [splitLines_other c1 c2 rest h1 h2,
      flatten_consHead c1 _ (splitLines_ne_nil _), ih]
    simp [stripTerm, h1, h2]

theorem flatten_filter_nonempty (L : List (List Char)) :
    (L.filter fun l => !l.isEmpty).flatten = L.flatten := by
  induction L with
  | nil => rfl
  | cons l ls ih =>
    by_cases h : l.isEmpty
    · rw [List.isEmpty_iff] at h
      subst h
      simpa using ih
    · simp only [List.filter_cons, h]
      simpa using ih

theorem dropLast_append_getLastD {α : Type} (L : List α) (d : α) (h : L ≠ []) :
    L.dropLast ++ [L.getLastD d] = L := by
  induction L with
  | nil => exact absurd rfl h
  | cons l ls ih =>
    cases ls with
    | nil => simp
    | cons l2 ls2 =>
      rw [List.dropLast_cons₂, List.getLastD_cons,
        getLastD_irrel (l2 :: ls2) (by simp) l d, List.cons_append,
        ih (by simp)]

/-- The full sequence of lines emitted over a stream's lifetime (including
the final flush) is exactly the non-empty segments of the split input. -/
theorem flushFramer_feed (input : List Char) :
    flushFramer (feed initFramer input) =
      (splitLines input).filter fun l => !l.isEmpty := by
  simp only [flushFramer, feed, initFramer, List.nil_append]
  rw [← dropLast_append_getLastD (splitLines input) [] (splitLines_ne_nil _),
    List.filter_append, List.dropLast_append_of_ne_nil _ (by simp),
    getLastD_append_of_ne_nil _ _ _ (by simp)]
  simp only [List.dropLast_single, List.append_nil, List.getLastD_cons,
    List.getLastD_nil, List.filter_cons, List.filter_nil]
  by_cases h : ((splitLines input).getLastD []).isEmpty <;> simp [h]

/-- Rejoin a sequence of lines with `\n` between them. -/
def joinNl : List (List Char) → List Char
  | [] => []
  | [l] => l
  | l :: ls => l ++ '\n' :: joinNl ls

/-- C5: Line framing is chunking-invariant.  For any sequence of chunks,
feeding them one by one to a fresh framer yields exactly the same framer
state (same ordered sequence of emitted lines and same residual buffer) as
feeding the whole concatenation as one chunk; consequently the sequences of
lines seen after the final flush agree as well.  This covers in particular a
`\r\n` terminator split across two chunks, since the buffer re-splits
`buffer + chunk` from scratch. -/
theorem framer_chunking_invariant (chunks : List (List Char)) :
    feedAll initFramer chunks = feed initFramer chunks.flatten ∧
    flushFramer (feedAll initFramer chunks) =
      flushFramer (feed initFramer chunks.flatten) := by
  have h := feedAll_eq_feed_flatten chunks initFramer (by simp [initFramer])
  exact ⟨h, by rw [h]⟩

/-- C3 (counterexample): the claimed no-data-loss equation — emitted lines
rejoined with `\n`, plus the unflushed buffer, equal the input modulo
terminator normalization — fails on the input `"a\n\nb"`: the `if (line)`
check in the data handler drops the empty line, so the left side is
`"a\nb"` while the normalized input is `"a\n\nb"`. -/
theorem framer_claimed_equation_fails :
    ¬ (joinNl ((feed initFramer ['a', '\n', '\n', 'b']).emitted ++
          [(feed initFramer ['a', '\n', '\n', 'b']).buffer]) =
        joinNl (splitLines ['a', '\n', '\n', 'b'])) := by
  decide

/-- C3 (amended): no output content is lost, but empty lines are dropped.
After the final flush, the emitted lines are exactly the non-empty segments
of the terminator-split of the full input, in order; in particular their
concatenated character content equals the input with all line terminators
removed. -/
theorem framer_no_content_loss (chunks : List (List Char)) :
    flushFramer (feedAll initFramer chunks) =
      ((splitLines chunks.flatten).filter fun l => !l.isEmpty) ∧
    (flushFramer (feedAll initFramer chunks)).flatten =
      stripTerm chunks.flatten := by
  have h := feedAll_eq_feed_flatten chunks initFramer (by simp [initFramer])
  rw [h, flushFramer_feed]
  exact ⟨rfl, by rw [flatten_filter_nonempty, flatten_splitLines]⟩

/-! ## Command dispatcher (`main.ts`, streaming `execute-command` handler) -/

/-- Stdin-payload extraction (`main.ts` lines 574-578): if the command string
contains a colon anywhere, `command.split(':')` is taken, the part before the
first colon becomes the command and everything after it (with interior colons
restored by `parts.slice(1).join(':')`) becomes the stdin payload.  There is
no whitelist check in this code path. -/
def extractStdin (command : List Char) : List Char × Option (List Char) :=
  if ':' ∈ command then
    (command.takeWhile (fun c => c != ':'),
      some (command.dropWhile (fun c => c != ':')).tail)
  else (command, none)

/-- Embedding of the executable substitution (`main.ts` line 585):
replace a leading `gitmastery` by the quoted executable path. -/
def replaceGitmastery (cmd exePath : List Char) : List Char :=
  if cmd.take 10 = "gitmastery".toList then
    '"' :: (exePath ++ '"' :: cmd.drop 10)
  else cmd

/-- The quote-aware argument scanner (`main.ts` lines 589-608): `"` toggles
quoting and is dropped, a space outside quotes ends the current argument
(pushed only when non-empty), every other character is appended to the
current argument; a trailing non-empty argument is pushed at the end. -/
def tokGo : List Char → List Char → Bool → List (List Char)
  | [], cur, _q => if cur.isEmpty then [] else [cur.reverse]
  | c :: rest, cur, q =>
    if c = '"' then tokGo rest cur (!q)
    else if c = ' ' ∧ q = false then
      if cur.isEmpty then tokGo rest [] false
      else cur.reverse :: tokGo rest [] false
    else tokGo rest (c :: cur) q

def tokenize (s : List Char) : List (List Char) := tokGo s [] false

/-- Result of the pre-spawn phase of the streaming handler: the resolved
executable (`args.shift() || exePath`, line 610), the remaining argument
vector, and the extracted stdin payload. -/
structure Prepared where
  executable : List Char
  args : List (List Char)
  stdinPayload : Option (List Char)
  deriving DecidableEq

def prepareExecution (command exePath : List Char) : Prepared :=
  match tokenize (replaceGitmastery (extractStdin command).1 exePath) with
  | [] => ⟨exePath, [], (extractStdin command).2⟩
  | e :: rest => ⟨e, rest, (extractStdin command).2⟩

/-- Operations performed on the child's standard input. -/
inductive StdinOp where
  | write (s : List Char)
  | close
  deriving DecidableEq

/-- Stdin injection, `main.ts` lines 691-694: if a (truthy, i.e. non-empty) payload was
extracted, write it followed by a single newline and close standard input;
otherwise leave standard input untouched. -/
def stdinOps : Option (List Char) → List StdinOp
  | some p => if p.isEmpty then [] else [.write (p ++ ['\n']), .close]
  | none => []

theorem tokGo_quoted (E : List Char) (hq : '"' ∉ E) :
    ∀ (rest cur : List Char), tokGo (E ++ rest) cur true = tokGo rest (E.reverse ++ cur) true := by
  induction E with
  | nil => intro rest cur; simp
  | cons c E ih =>
    intro rest cur
    have hc : c ≠ '"' := fun h => hq (h ▸ List.mem_cons_self c E)
    rw [List.cons_append]
    show tokGo (c :: (E ++ rest)) cur true = _
    rw [show tokGo (c :: (E ++ rest)) cur true = tokGo (E ++ rest) (c :: cur) true by
      simp [tokGo, hc]]
    rw [ih (fun h => hq (List.mem_cons_of_mem c h)) rest (c :: cur)]
    simp [List.append_assoc]

theorem tokGo_sound (s : List Char) :
    ∀ (cur : List Char) (q : Bool), '"' ∉ cur →
      ∀ a ∈ tokGo s cur q, a ≠ [] ∧ '"' ∉ a := by
  induction s with
  | nil =>
    intro cur q hcur a ha
    by_cases h : cur.isEmpty
    · simp [tokGo, h] at ha
    · simp [tokGo, h] at ha
      subst ha
      refine ⟨fun hEq => h ?_, fun hmem => hcur (List.mem_reverse.mp hmem)⟩
      rw [List.isEmpty_iff]
      exact List.reverse_eq_nil_iff.mp hEq
  | cons c rest ih =>
    intro cur q hcur a ha
    by_cases h1 : c = '"'
    · rw [show tokGo (c :: rest) cur q = tokGo rest cur (!q) by simp [tokGo, h1]] at ha
      exact ih cur (!q) hcur a ha
    · by_cases h2 : c = ' ' ∧ q = false
      · by_cases h3 : cur.isEmpty
        · rw [show tokGo (c :: rest) cur q = tokGo rest [] false by
            simp [tokGo, h1, h2, h3]] at ha
          exact ih [] false (by simp) a ha
        · rw [show tokGo (c :: rest) cur q = cur.reverse :: tokGo rest [] false by
            simp [tokGo, h1, h2, h3]] at ha
          rcases List.mem_cons.mp ha with h | h
          · subst h
            refine ⟨fun hEq => h3 ?_, fun hmem => hcur (List.mem_reverse.mp hmem)⟩
            rw [List.isEmpty_iff]
            exact List.reverse_eq_nil_iff.mp hEq
          · exact ih [] false (by simp) a h
      · rw [show tokGo (c :: rest) cur q = tokGo rest (c :: cur) q by
          simp [tokGo, h1, h2]] at ha
        exact ih (c :: cur) q (by
          intro hmem
          rcases List.mem_cons.mp hmem with h | h
          · exact h1 h.symm
          · exact hcur h) a ha

/-- C2 (code bug): the stdin-payload extraction of the streaming handler has
no whitelist check, so the non-whitelisted command
`git remote add origin https://example.com/r.git` IS split at its first
colon — exactly the breakage `DEVELOPER.md` documents the whitelist as
preventing.  The command is truncated to `git remote add origin https` and
`//example.com/r.git` becomes a stdin payload. -/
theorem extractStdin_splits_url :
    extractStdin ("git remote add origin https://example.com/r.git".toList) =
      ("git remote add origin https".toList,
        some ("//example.com/r.git".toList)) ∧
    extractStdin ("git remote add origin https://example.com/r.git".toList) ≠
      ("git remote add origin https://example.com/r.git".toList, none) := by
  constructor <;> decide

/-- C7: for the whitelisted command string `gitmastery setup:my-dir` the
dispatcher splits at the first colon, resolves the program to the executable
path `E` with argument `setup`, and the stdin protocol writes exactly
`my-dir\n` and then closes standard input.  The last conjunct shows colons
inside a payload are preserved (`parts.slice(1).join(':')`). -/
theorem dispatcher_setup_stdin (E : List Char) (hne : E ≠ []) (hq : '"' ∉ E) :
    prepareExecution ("gitmastery setup:my-dir".toList) E =
      ⟨E, ["setup".toList], some ("my-dir".toList)⟩ ∧
    stdinOps (prepareExecution ("gitmastery setup:my-dir".toList) E).stdinPayload =
      [StdinOp.write ("my-dir\n".toList), StdinOp.close] ∧
    extractStdin ("gitmastery setup:a:b".toList) =
      ("gitmastery setup".toList, some ("a:b".toList)) := by
  have h1 : (extractStdin ("gitmastery setup:my-dir".toList)).1 =
      "gitmastery setup".toList := by decide
  have h2 : (extractStdin ("gitmastery setup:my-dir".toList)).2 =
      some ("my-dir".toList) := by decide
  have hrep : replaceGitmastery ("gitmastery setup".toList) E =
      '"' :: (E ++ '"' :: " setup".toList) := by
    simp only [replaceGitmastery]
    rw [if_pos (by decide),
      show ("gitmastery setup".toList).drop 10 = " setup".toList from by decide]
  have hcur : (E.reverse).isEmpty = false := by
    cases hE : E.reverse with
    | nil => exact absurd (List.reverse_eq_nil_iff.mp hE) hne
    | cons x xs => rfl
  have htok : tokenize ('"' :: (E ++ '"' :: " setup".toList)) =
      [E, "setup".toList] := by
    unfold tokenize
    rw [show tokGo ('"' :: (E ++ '"' :: " setup".toList)) [] false
          = tokGo (E ++ '"' :: " setup".toList) [] true from by simp [tokGo]]
    rw [tokGo_quoted E hq ('"' :: " setup".toList) [], List.append_nil]
    rw [show tokGo ('"' :: " setup".toList) E.reverse true
          = tokGo (" setup".toList) E.reverse false from by simp [tokGo]]
    rw [show (" setup".toList) = ' ' :: "setup".toList from by decide]
    rw [show tokGo (' ' :: "setup".toList) E.reverse false
          = E.reverse.reverse :: tokGo ("setup".toList) [] false from by
        simp [tokGo, hcur]]
    rw [show tokGo ("setup".toList) [] false = ["setup".toList] from by decide]
    simp
  have hprep : prepareExecution ("gitmastery setup:my-dir".toList) E =
      ⟨E, ["setup".toList], some ("my-dir".toList)⟩ := by
    simp only [prepareExecution, h1, h2, hrep, htok]
  refine ⟨hprep, ?_, by decide⟩
  rw [hprep]
  show stdinOps (some ("my-dir".toList)) = _
  decide

/-- C7 witness at a concrete executable path. -/
theorem dispatcher_setup_stdin_witness :
    prepareExecution ("gitmastery setup:my-dir".toList) ("/usr/local/bin/gm".toList) =
      ⟨"/usr/local/bin/gm".toList, ["setup".toList], some ("my-dir".toList)⟩ ∧
    stdinOps (prepareExecution ("gitmastery setup:my-dir".toList)
        ("/usr/local/bin/gm".toList)).stdinPayload =
      [StdinOp.write ("my-dir\n".toList), StdinOp.close] ∧
    extractStdin ("gitmastery setup:a:b".toList) =
      ("gitmastery setup".toList, some ("a:b".toList)) :=
  dispatcher_setup_stdin ("/usr/local/bin/gm".toList) (by decide) (by decide)

/-- C10: every argument produced by the quote-aware tokenizer is non-empty
and contains no double-quote character; runs of spaces yield no empty
arguments, a quoted empty string yields no argument at all, and a tab is not
a separator. -/
theorem tokenizer_invariants :
    (∀ (input : List Char), ∀ a ∈ tokenize input, a ≠ [] ∧ '"' ∉ a) ∧
    tokenize ("a  b".toList) = ["a".toList, "b".toList] ∧
    tokenize ("a \"\" b".toList) = ["a".toList, "b".toList] ∧
    tokenize ("a\tb".toList) = ["a\tb".toList] := by
  refine ⟨fun input a ha => tokGo_sound input [] false (by simp) a ha,
    by decide, by decide, by decide⟩

/-- C10 witness: the invariant evaluated at the concrete input `x"y`. -/
theorem tokenizer_invariants_witness :
    ("xy".toList ≠ [] ∧ '"' ∉ "xy".toList) :=
  tokenizer_invariants.1 ("x\"y".toList) ("xy".toList) (by decide)

/-! ## The execute-command event handlers (`main.ts` lines 616-695) -/

/-- The terminal record sent as the `command-complete` event. -/
structure CommandResult where
  success : Bool
  output : List Char
  error : Option (List Char)
  deriving DecidableEq

/-- A message sent to the renderer: one output line (`command-output-line`)
or the terminal result (`command-complete`). -/
inductive Msg where
  | line (l : List Char)
  | complete (r : CommandResult)
  deriving DecidableEq

def Msg.isLine : Msg → Bool
  | .line _ => true
  | .complete _ => false

/-- Events delivered by the child process to the registered handlers. -/
inductive Event where
  | stdoutData (chunk : List Char)
  | stderrData (chunk : List Char)
  | errorEvt (message : List Char)
  | closeEvt (code : Option Int)
  deriving DecidableEq

def Event.isData : Event → Bool
  | .stdoutData _ => true
  | .stderrData _ => true
  | _ => false

/-- Handler state: the two stream buffers, the `hasError` flag, and the
sequence of messages sent so far. -/
structure HState where
  stdoutBuffer : List Char
  stderrBuffer : List Char
  hasError : Bool
  sent : List Msg
  deriving DecidableEq

def initHState : HState := ⟨[], [], false, []⟩

/-- String interpolation of the (possibly `null`) exit code. -/
def renderCode : Option Int → List Char
  | none => "null".toList
  | some n => (toString n).toList

/-- The result built by the close handler (`main.ts` lines 679-686):
`success = (code === 0)`, a fixed confirmation string on success, and exit
code messages on failure. -/
def closeResult (code : Option Int) : CommandResult :=
  if code = some 0 then
    ⟨true, "Command completed successfully".toList, none⟩
  else
    ⟨false, "Command exited with code ".toList ++ renderCode code,
      some ("Exit code: ".toList ++ renderCode code)⟩

/-- The line messages a data handler emits for one chunk (`main.ts` lines
627-640 and 643-656). -/
def dataLines (buf chunk : List Char) : List Msg :=
  ((splitLines (buf ++ chunk)).dropLast.filter fun l => !l.isEmpty).map Msg.line

/-- The new buffer after one chunk. -/
def dataBuffer (buf chunk : List Char) : List Char :=
  (splitLines (buf ++ chunk)).getLastD []

/-- One step of the handler state machine, mirroring the four registered
callbacks of the streaming `execute-command` handler: the two `data`
handlers, the `error` handler (lines 659-667) and the `close` handler
(lines 670-688). -/
def step (s : HState) : Event → HState
  | .stdoutData chunk =>
    { s with stdoutBuffer := dataBuffer s.stdoutBuffer chunk,
             sent := s.sent ++ dataLines s.stdoutBuffer chunk }
  | .stderrData chunk =>
    { s with stderrBuffer := dataBuffer s.stderrBuffer chunk,
             sent := s.sent ++ dataLines s.stderrBuffer chunk }
  | .errorEvt message =>
    { s with hasError := true,
             sent := s.sent ++ [.complete ⟨false,
               s.stdoutBuffer ++ s.stderrBuffer,
               some ("Failed to execute command: ".toList ++ message)⟩] }
  | .closeEvt code =>
    { s with sent := s.sent ++
        ((if s.stdoutBuffer.isEmpty then [] else [Msg.line s.stdoutBuffer]) ++
         (if s.stderrBuffer.isEmpty then [] else [Msg.line s.stderrBuffer]) ++
         (if s.hasError then [] else [Msg.complete (closeResult code)])) }

def run (events : List Event) : HState := events.foldl step initHState

/-- Admissible event sequences for one execution, following the Node.js
child-process contract: either the spawn succeeds — some stream-data events
followed by exactly one final `close` — or the spawn fails — an `error`
event (after which no stdio data can arrive, since the process never
started), optionally followed by the final `close`. -/
def Admissible (tr : List Event) : Prop :=
  (∃ ds code, tr = ds ++ [Event.closeEvt code] ∧ ∀ e ∈ ds, e.isData = true) ∨
  (∃ msg, tr = [Event.errorEvt msg]) ∨
  (∃ msg code, tr = [Event.errorEvt msg, Event.closeEvt code])

/-- The terminal results among a message sequence. -/
def completes (msgs : List Msg) : List CommandResult :=
  msgs.filterMap fun m => match m with | .complete r => some r | _ => none

theorem completes_append (a b : List Msg) :
    completes (a ++ b) = completes a ++ completes b := by
  simp [completes, List.filterMap_append]

theorem completes_of_lines (ls : List Msg) (h : ∀ m ∈ ls, m.isLine = true) :
    completes ls = [] := by
  induction ls with
  | nil => rfl
  | cons m ms ih =>
    cases m with
    | line l =>
      simp only [completes, List.filterMap_cons]
      exact ih fun m hm => h m (List.mem_cons_of_mem _ hm)
    | complete r =>
      exact absurd (h _ (List.mem_cons_self _ _)) (by simp [Msg.isLine])

theorem dataLines_all_lines (buf chunk : List Char) :
    ∀ m ∈ dataLines buf chunk, m.isLine = true := by
  intro m hm
  obtain ⟨l, _, rfl⟩ := List.mem_map.mp hm
  rfl

/-- Processing a run of pure data events only appends line messages and
leaves `hasError` untouched. -/
theorem foldl_data (ds : List Event) :
    ∀ (s : HState), (∀ e ∈ ds, e.isData = true) →
      ∃ ls : List Msg, (ds.foldl step s).sent = s.sent ++ ls ∧
        (∀ m ∈ ls, m.isLine = true) ∧
        (ds.foldl step s).hasError = s.hasError := by
  intro s h
  induction ds generalizing s with
  | nil => exact ⟨[], by simp, by simp, rfl⟩
  | cons e ds ih =>
    have he : e.isData = true := h e (List.mem_cons_self _ _)
    have hds : ∀ x ∈ ds, x.isData = true := fun x hx => h x (List.mem_cons_of_mem _ hx)
    obtain ⟨ls, hsent, hlines, herr⟩ := ih (step s e) hds
    cases e with
    | stdoutData chunk =>
      refine ⟨dataLines s.stdoutBuffer chunk ++ ls, ?_, ?_, ?_⟩
      · rw [List.foldl_cons, hsent]
        simp [step, List.append_assoc]
      · intro m hm
        rcases List.mem_append.mp hm with hm | hm
        · exact dataLines_all_lines _ _ m hm
        · exact hlines m hm
      · rw [List.foldl_cons, herr]; rfl
    | stderrData chunk =>
      refine ⟨dataLines s.stderrBuffer chunk ++ ls, ?_, ?_, ?_⟩
      · rw [List.foldl_cons, hsent]
        simp [step, List.append_assoc]
      · intro m hm
        rcases List.mem_append.mp hm with hm | hm
        · exact dataLines_all_lines _ _ m hm
        · exact hlines m hm
      · rw [List.foldl_cons, herr]; rfl
    | errorEvt msg => simp [Event.isData] at he
    | closeEvt code => simp [Event.isData] at he

theorem closeResult_success (code : Option Int) :
    (closeResult code).success = true ↔ code = some 0 := by
  by_cases h : code = some 0 <;> simp [closeResult, h]

theorem flush_all_lines (b1 b2 : List Char) :
    ∀ m ∈ ((if b1.isEmpty then [] else [Msg.line b1]) ++
        (if b2.isEmpty then [] else [Msg.line b2])),
      m.isLine = true := by
  intro m hm
  rcases List.mem_append.mp hm with hm | hm <;>
    [by_cases h : b1.isEmpty; by_cases h : b2.isEmpty] <;>
    simp [h] at hm <;> simp [hm, Msg.isLine]

/-- C1: exactly one terminal `command-complete` result is produced per
execution, on every admissible path (spawn error, spawn error then close,
or data events then close); the result's `success` field is `true` exactly
when no process-start error occurred and the process exit code is `0`. -/
theorem executeCommand_exactly_one_result (tr : List Event) (h : Admissible tr) :
    (completes (run tr).sent).length = 1 ∧
    ∀ r ∈ completes (run tr).sent,
      (r.success = true ↔
        ((∀ m, Event.errorEvt m ∉ tr) ∧
          tr.getLast? = some (Event.closeEvt (some 0)))) := by
  rcases h with ⟨ds, code, rfl, hds⟩ | ⟨msg, rfl⟩ | ⟨msg, code, rfl⟩
  · obtain ⟨ls, hsent, hlines, herr⟩ := foldl_data ds initHState hds
    have hrun : run (ds ++ [Event.closeEvt code]) =
        step (ds.foldl step initHState) (Event.closeEvt code) := by
      simp [run, List.foldl_append]
    have herr' : (ds.foldl step initHState).hasError = false := by
      rw [herr]; rfl
    have hsent0 : (ds.foldl step initHState).sent = ls := by
      rw [hsent]; rfl
    have hfin : (run (ds ++ [Event.closeEvt code])).sent =
        (ls ++
          ((if (ds.foldl step initHState).stdoutBuffer.isEmpty then []
            else [Msg.line (ds.foldl step initHState).stdoutBuffer]) ++
           (if (ds.foldl step initHState).stderrBuffer.isEmpty then []
            else [Msg.line (ds.foldl step initHState).stderrBuffer]))) ++
          [Msg.complete (closeResult code)] := by
      rw [hrun]
      simp [step, hsent0, herr', List.append_assoc]
    have hcomp : completes (run (ds ++ [Event.closeEvt code])).sent =
        [closeResult code] := by
      rw [hfin, completes_append, completes_append,
        completes_of_lines ls hlines,
        completes_of_lines _ (flush_all_lines _ _)]
      rfl
    have hfree : ∀ m, Event.errorEvt m ∉ ds ++ [Event.closeEvt code] := by
      intro m hmem
      rcases List.mem_append.mp hmem with hmem | hmem
      · have := hds _ hmem
        simp [Event.isData] at this
      · simp at hmem
    refine ⟨by rw [hcomp]; rfl, ?_⟩
    intro r hr
    rw [hcomp] at hr
    rw [List.mem_singleton.mp hr, closeResult_success]
    constructor
    · intro h0
      exact ⟨hfree, by rw [List.getLast?_concat, h0]⟩
    · rintro ⟨-, hlast⟩
      rw [List.getLast?_concat] at hlast
      simpa using hlast
  · refine ⟨rfl, ?_⟩
    intro r hr
    simp only [run, List.foldl_cons, List.foldl_nil, step, initHState] at hr
    simp only [completes, List.filterMap] at hr
    rw [List.mem_singleton.mp hr]
    constructor
    · intro habs
      simp at habs
    · rintro ⟨hfree, -⟩
      exact absurd (List.mem_singleton_self _) (hfree msg)
  · refine ⟨rfl, ?_⟩
    intro r hr
    simp only [run, List.foldl_cons, List.foldl_nil, step, initHState] at hr
    simp only [completes, List.filterMap] at hr
    simp at hr
    rw [hr]
    constructor
    · intro habs
      simp at habs
    · rintro ⟨hfree, -⟩
      exact absurd (by simp : Event.errorEvt msg ∈
        [Event.errorEvt msg, Event.closeEvt code]) (hfree msg)

/-- C1 witness: a single zero-exit close event produces exactly one result. -/
theorem executeCommand_exactly_one_result_witness :
    (completes (run [Event.closeEvt (some 0)]).sent).length = 1 :=
  (executeCommand_exactly_one_result [Event.closeEvt (some 0)]
    (Or.inl ⟨[], some 0, rfl, by simp⟩)).1

/-- C4: the terminal result is the last event of an execution — the message
sequence of every admissible path ends with the single `command-complete`
message, and everything before it is a `command-output-line` message. -/
theorem result_is_last_event (tr : List Event) (h : Admissible tr) :
    ∃ pre r, (run tr).sent = pre ++ [Msg.complete r] ∧
      ∀ m ∈ pre, m.isLine = true := by
  rcases h with ⟨ds, code, rfl, hds⟩ | ⟨msg, rfl⟩ | ⟨msg, code, rfl⟩
  · obtain ⟨ls, hsent, hlines, herr⟩ := foldl_data ds initHState hds
    have hrun : run (ds ++ [Event.closeEvt code]) =
        step (ds.foldl step initHState) (Event.closeEvt code) := by
      simp [run, List.foldl_append]
    have herr' : (ds.foldl step initHState).hasError = false := by
      rw [herr]; rfl
    have hsent0 : (ds.foldl step initHState).sent = ls := by
      rw [hsent]; rfl
    refine ⟨ls ++
      ((if (ds.foldl step initHState).stdoutBuffer.isEmpty then []
        else [Msg.line (ds.foldl step initHState).stdoutBuffer]) ++
       (if (ds.foldl step initHState).stderrBuffer.isEmpty then []
        else [Msg.line (ds.foldl step initHState).stderrBuffer])),
      closeResult code, ?_, ?_⟩
    · rw [hrun]
      simp [step, hsent0, herr', List.append_assoc]
    · intro m hm
      rcases List.mem_append.mp hm with hm | hm
      · exact hlines m hm
      · exact flush_all_lines _ _ m hm
  · exact ⟨[], ⟨false, [], some ("Failed to execute command: ".toList ++ msg)⟩,
      by simp [run, step, initHState], by simp⟩
  · exact ⟨[], ⟨false, [], some ("Failed to execute command: ".toList ++ msg)⟩,
      by simp [run, step, initHState], by simp⟩

/-- C4 witness: one line of output followed by a non-zero exit. -/
theorem result_is_last_event_witness :
    ∃ pre r, (run [Event.stdoutData ['x', '\n'], Event.closeEvt (some 1)]).sent =
        pre ++ [Msg.complete r] ∧ ∀ m ∈ pre, m.isLine = true :=
  result_is_last_event [Event.stdoutData ['x', '\n'], Event.closeEvt (some 1)]
    (Or.inl ⟨[Event.stdoutData ['x', '\n']], some 1, rfl, by simp [Event.isData]⟩)

/-! ## Renderer path resolution (`resolvePath`) -/

def isSep (c : Char) : Bool := c = '/' || c = '\\'

/-- Embedding of `split(/[\\\/]/)`: split on every single `/` or `\` character. -/
def splitSep : List Char → List (List Char)
  | [] => [[]]
  | c :: rest => if isSep c then [] :: splitSep rest else consHead c (splitSep rest)

/-- The absolute-path test of `resolvePath`: a drive letter followed by
`:` and a backslash, a UNC double-backslash prefix, or a leading `/`. -/
def isAbsolutePath (t : List Char) : Bool :=
  (match t with
   | a :: ':' :: '\\' :: _ => a.isAlpha
   | _ => false) ||
  (match t with
   | '\\' :: '\\' :: _ => true
   | _ => false) ||
  (match t with
   | '/' :: _ => true
   | _ => false)

/-- Rejoin path segments with the given separator (`parts.join(separator)`). -/
def joinSep (sep : Char) : List (List Char) → List Char
  | [] => []
  | [p] => p
  | p :: ps => p ++ sep :: joinSep sep ps

/-- Embedding of `resolvePath(targetPath, basePath)` from the renderer: the separator
style is inferred from the base (`/` if the base contains a `/`, else `\`);
an absolute target is returned verbatim; otherwise both paths are split on
any separator, `..` pops a segment (popping an empty list is a no-op, as
`Array.prototype.pop` on an empty array), `.` and empty segments are
skipped, other segments are pushed, and the result is rejoined. -/
def resolvePath (targetPath basePath : List Char) : List Char :=
  if isAbsolutePath targetPath then targetPath
  else
    joinSep (if '/' ∈ basePath then '/' else '\\')
      ((splitSep targetPath).foldl
        (fun acc part =>
          if part = ['.', '.'] then acc.dropLast
          else if part = ['.'] ∨ part = [] then acc
          else acc ++ [part])
        (splitSep basePath))

/-- C6: `resolvePath` returns absolute targets verbatim, and resolves
relative targets by segment-wise traversal with the separator inferred from
the base: the two concrete cases of the claim evaluate as specified. -/
theorem resolvePath_spec :
    (∀ t b, isAbsolutePath t = true → resolvePath t b = t) ∧
    resolvePath ("../sibling".toList) ("/home/user/project".toList) =
      "/home/user/sibling".toList ∧
    resolvePath ("sub\\dir".toList) ("C:\\Users\\me\\proj".toList) =
      "C:\\Users\\me\\proj\\sub\\dir".toList := by
  refine ⟨fun t b h => by simp [resolvePath, h], by decide, by decide⟩

/-- C6 witness: an absolute target (each of the three absolute forms) is
returned verbatim. -/
theorem resolvePath_spec_witness :
    resolvePath ("/tmp/x".toList) ("/base".toList) = "/tmp/x".toList ∧
    resolvePath ("C:\\w".toList) ("/base".toList) = "C:\\w".toList ∧
    resolvePath ("\\\\srv\\s".toList) ("/base".toList) = "\\\\srv\\s".toList :=
  ⟨resolvePath_spec.1 _ _ (by decide), resolvePath_spec.1 _ _ (by decide),
    resolvePath_spec.1 _ _ (by decide)⟩

/-! ## Renderer cd-hint parsing (`parseOutputForCd`) -/

/-- The whitespace class `\s` of the JavaScript regex engine (the characters
relevant to this code base; `\s` also matches further Unicode space
characters, which no claim exercises). -/
def jsWs (c : Char) : Bool :=
  c = ' ' || c = '\t' || c = '\n' || c = '\r' ||
  c = Char.ofNat 11 || c = Char.ofNat 12 || c = Char.ofNat 160

/-- The line-terminator class of the JavaScript regex engine: the `.` atom
matches any character except LF, CR, U+2028 and U+2029 (ECMA-262,
without the `s` flag). -/
def jsTerm (c : Char) : Bool :=
  c = '\n' || c = '\r' || c = Char.ofNat 8232 || c = Char.ofNat 8233

/-- The `\s+(.+?)$` tail of the cd regex, applied after a matched `cd`.
The greedy whitespace run is taken first; the lazy `(.+?)$` then has to
cover the whole remainder up to the end of the input (without the `m` flag
`$` matches only there), every captured character matched by `.`, which
excludes line terminators.  If anything after the whitespace run contains a
terminator the match fails outright (shorter whitespace runs only enlarge
the capture).  When the whole remainder is whitespace, the engine gives one
whitespace character back to the capture — succeeding only when that final
character is not itself a terminator. -/
def tailMatch (rest : List Char) : Option (List Char) :=
  if (rest.takeWhile jsWs).isEmpty then none
  else if (rest.dropWhile jsWs).isEmpty then
    if 2 ≤ rest.length ∧ jsTerm (rest.getLastD '\n') = false then
      some [rest.getLastD '\n']
    else none
  else
    if (rest.dropWhile jsWs).all (fun c => !jsTerm c) then
      some (rest.dropWhile jsWs)
    else none

/-- The pattern `cd\s+(.+?)$` (case-insensitive) matched at the start of `l`. -/
def tryCd (l : List Char) : Option (List Char) :=
  match l with
  | c :: d :: rest =>
    if c.toLower = 'c' ∧ d.toLower = 'd' then tailMatch rest else none
  | _ => none

/-- Case-insensitive `INFO` prefix. -/
def stripInfo (l : List Char) : Option (List Char) :=
  match l with
  | a :: b :: c :: d :: rest =>
    if a.toLower = 'i' ∧ b.toLower = 'n' ∧ c.toLower = 'f' ∧ d.toLower = 'o'
    then some rest else none
  | _ => none

/-- The pattern `(?:INFO\s+)?cd\s+(.+?)$` with the optional group present, matched at
the start of `l`: after `INFO`, the whitespace run cannot end anywhere but
at its maximum (a shorter run would put a whitespace character where `c`
must be). -/
def tryInfoCd (l : List Char) : Option (List Char) :=
  match stripInfo l with
  | some r =>
    if (r.takeWhile jsWs).length = 0 then none
    else tryCd (r.drop (r.takeWhile jsWs).length)
  | none => none

/-- Leftmost-match search of `String.prototype.match`: at each start
position, the alternative with the `INFO` group is tried before the one
without, and the first success wins. -/
def firstCdMatch : List Char → Option (List Char)
  | [] => none
  | c :: rest =>
    match tryInfoCd (c :: rest) with
    | some v => some v
    | none =>
      match tryCd (c :: rest) with
      | some v => some v
      | none => firstCdMatch rest

/-- Embedding of `String.prototype.trim`. -/
def trimWs (l : List Char) : List Char :=
  ((l.dropWhile jsWs).reverse.dropWhile jsWs).reverse

/-- Strip one pair of surrounding double or single quotes
(`targetPath.slice(1, -1)` when both ends are the same quote). -/
def stripQuotes (t : List Char) : List Char :=
  if (t.head? = some '"' ∧ t.getLast? = some '"') ∨
     (t.head? = some (Char.ofNat 39) ∧ t.getLast? = some (Char.ofNat 39)) then
    (t.drop 1).dropLast
  else t

/-- Embedding of `parseOutputForCd` from the renderer: match the line against
`/(?:INFO\s+)?cd\s+(.+?)$/i`, trim the captured path and strip surrounding
quotes; `null` when the regex does not match. -/
def parseOutputForCd (line : List Char) : Option (List Char) :=
  (firstCdMatch line).map fun cap => stripQuotes (trimWs cap)

theorem dropWhile_append_of_all (p : Char → Bool) (ws l : List Char)
    (h : ∀ x ∈ ws, p x = true) : (ws ++ l).dropWhile p = l.dropWhile p := by
  induction ws with
  | nil => rfl
  | cons a ws ih =>
    rw [List.cons_append, List.dropWhile_cons_of_pos (h a (List.mem_cons_self _ _))]
    exact ih fun x hx => h x (List.mem_cons_of_mem _ hx)

/-- A case-insensitive `cd` at the head, followed by at least one whitespace
character and then a non-empty remainder that reaches the end of the line
and contains no line-terminator character. -/
def CdShape : List Char → Prop
  | c :: d :: rest =>
    c.toLower = 'c' ∧ d.toLower = 'd' ∧
      ∃ wsPart path, rest = wsPart ++ path ∧ wsPart ≠ [] ∧
        (∀ x ∈ wsPart, jsWs x = true) ∧ path ≠ [] ∧
        ∀ x ∈ path, jsTerm x = false
  | _ => False

theorem tailMatch_isSome_iff (rest : List Char) :
    (tailMatch rest).isSome = true ↔
      ∃ wsPart path, rest = wsPart ++ path ∧ wsPart ≠ [] ∧
        (∀ x ∈ wsPart, jsWs x = true) ∧ path ≠ [] ∧
        ∀ x ∈ path, jsTerm x = false := by
  constructor
  · intro h
    unfold tailMatch at h
    by_cases h1 : (rest.takeWhile jsWs).isEmpty = true
    · rw [if_pos h1] at h
      simp at h
    · rw [if_neg h1] at h
      by_cases h2 : (rest.dropWhile jsWs).isEmpty = true
      · rw [if_pos h2] at h
        by_cases h3 : 2 ≤ rest.length ∧ jsTerm (rest.getLastD '\n') = false
        · have hne : rest ≠ [] := by
            intro hEq
            subst hEq
            exact h1 rfl
          have hallws : ∀ x ∈ rest, jsWs x = true :=
            List.dropWhile_eq_nil_iff.mp (List.isEmpty_iff.mp h2)
          refine ⟨rest.dropLast, [rest.getLastD '\n'],
            (dropLast_append_getLastD rest '\n' hne).symm, ?_, ?_, by simp, ?_⟩
          · intro hEq
            have hlen := congrArg List.length hEq
            rw [List.length_dropLast] at hlen
            simp at hlen
            omega
          · exact fun x hx => hallws x ((List.dropLast_sublist rest).subset hx)
          · intro x hx
            rw [List.mem_singleton.mp hx]
            exact h3.2
        · rw [if_neg h3] at h
          simp at h
      · rw [if_neg h2] at h
        by_cases h4 : (rest.dropWhile jsWs).all (fun c => !jsTerm c) = true
        · refine ⟨rest.takeWhile jsWs, rest.dropWhile jsWs,
            (List.takeWhile_append_dropWhile _ _).symm, ?_, ?_, ?_, ?_⟩
          · exact fun hEq => h1 (by simp [hEq])
          · exact fun x hx => List.mem_takeWhile_imp hx
          · exact fun hEq => h2 (by simp [hEq])
          · intro x hx
            have := List.all_eq_true.mp h4 x hx
            simpa using this
        · rw [if_neg h4] at h
          simp at h
  · rintro ⟨ws, path, rfl, hwne, hws, hpne, hterm⟩
    obtain ⟨w0, ws2, rfl⟩ := List.exists_cons_of_ne_nil hwne
    have hw0 : jsWs w0 = true := hws w0 (List.mem_cons_self _ _)
    have htw : ¬ (((w0 :: ws2) ++ path).takeWhile jsWs).isEmpty = true := by
      rw [List.cons_append, List.takeWhile_cons_of_pos hw0]
      simp
    have hdrop : ((w0 :: ws2) ++ path).dropWhile jsWs = path.dropWhile jsWs :=
      dropWhile_append_of_all jsWs (w0 :: ws2) path hws
    unfold tailMatch
    rw [if_neg htw, hdrop]
    by_cases hpd : (path.dropWhile jsWs).isEmpty = true
    · have hlast : ((w0 :: ws2) ++ path).getLastD '\n' = path.getLastD '\n' :=
        getLastD_append_of_ne_nil (w0 :: ws2) path '\n' hpne
      have hlastmem : path.getLastD '\n' ∈ path := by
        obtain ⟨p0, path2, rfl⟩ := List.exists_cons_of_ne_nil hpne
        rw [List.getLastD_cons]
        exact List.getLastD_mem_cons path2 p0
      have hlen : 2 ≤ ((w0 :: ws2) ++ path).length := by
        rw [List.length_append]
        obtain ⟨p0, path2, rfl⟩ := List.exists_cons_of_ne_nil hpne
        simp
        omega
      rw [if_pos hpd, hlast, if_pos ⟨hlen, hterm _ hlastmem⟩]
      rfl
    · have hterm2 : (path.dropWhile jsWs).all (fun c => !jsTerm c) = true := by
        apply List.all_eq_true.mpr
        intro x hx
        have hmem : x ∈ path := (List.dropWhile_suffix jsWs).subset hx
        simp [hterm x hmem]
      rw [if_neg hpd, if_pos hterm2]
      rfl

theorem tryCd_isSome_iff (t : List Char) :
    (tryCd t).isSome = true ↔ CdShape t := by
  match t with
  | [] => simp [tryCd, CdShape]
  | [c] => simp [tryCd, CdShape]
  | c :: d :: rest =>
    by_cases h : c.toLower = 'c' ∧ d.toLower = 'd'
    · rw [show tryCd (c :: d :: rest) = tailMatch rest from by simp [tryCd, h],
        tailMatch_isSome_iff]
      show _ ↔ (c.toLower = 'c' ∧ d.toLower = 'd' ∧ _)
      simp [h.1, h.2]
    · rw [show tryCd (c :: d :: rest) = none from by simp [tryCd, h]]
      show _ ↔ (c.toLower = 'c' ∧ d.toLower = 'd' ∧ _)
      simp only [Option.isSome_none, Bool.false_eq_true, false_iff]
      intro hc
      exact h ⟨hc.1, hc.2.1⟩

theorem stripInfo_eq_drop (l r : List Char) (h : stripInfo l = some r) :
    r = l.drop 4 := by
  match l with
  | [] => simp [stripInfo] at h
  | [a] => simp [stripInfo] at h
  | [a, b] => simp [stripInfo] at h
  | [a, b, c] => simp [stripInfo] at h
  | a :: b :: c :: d :: rest =>
    by_cases hc : a.toLower = 'i' ∧ b.toLower = 'n' ∧ c.toLower = 'f' ∧ d.toLower = 'o'
    · rw [show stripInfo (a :: b :: c :: d :: rest) = some rest from by
        simp [stripInfo, hc]] at h
      simpa using h.symm
    · rw [show stripInfo (a :: b :: c :: d :: rest) = none from by
        simp [stripInfo, hc]] at h
      simp at h

theorem tryInfoCd_some_implies (l : List Char)
    (h : (tryInfoCd l).isSome = true) : ∃ t, t <:+ l ∧ CdShape t := by
  cases hsi : stripInfo l with
  | none => rw [show tryInfoCd l = none from by simp [tryInfoCd, hsi]] at h; simp at h
  | some r =>
    by_cases hw : (r.takeWhile jsWs).length = 0
    · rw [show tryInfoCd l = none from by simp [tryInfoCd, hsi, hw]] at h
      simp at h
    · rw [show tryInfoCd l = tryCd (r.drop (r.takeWhile jsWs).length) from by
        simp [tryInfoCd, hsi, hw]] at h
      refine ⟨r.drop (r.takeWhile jsWs).length, ?_, (tryCd_isSome_iff _).mp h⟩
      rw [stripInfo_eq_drop l r hsi, List.drop_drop]
      exact List.drop_suffix _ _

theorem firstCdMatch_isSome_iff (l : List Char) :
    (firstCdMatch l).isSome = true ↔ ∃ t, t <:+ l ∧ CdShape t := by
  induction l with
  | nil =>
    simp only [firstCdMatch, Option.isSome_none, Bool.false_eq_true, false_iff]
    rintro ⟨t, ht, hshape⟩
    rw [List.suffix_nil.mp ht] at hshape
    exact hshape
  | cons c rest ih =>
    constructor
    · intro h
      cases hA : tryInfoCd (c :: rest) with
      | some v => exact tryInfoCd_some_implies (c :: rest) (by simp [hA])
      | none =>
        cases hB : tryCd (c :: rest) with
        | some v =>
          exact ⟨c :: rest, List.suffix_refl _, (tryCd_isSome_iff _).mp (by simp [hB])⟩
        | none =>
          rw [show firstCdMatch (c :: rest) = firstCdMatch rest from by
            simp [firstCdMatch, hA, hB]] at h
          obtain ⟨t, ht, hshape⟩ := ih.mp h
          exact ⟨t, ht.trans (List.suffix_cons c rest), hshape⟩
    · rintro ⟨t, ht, hshape⟩
      cases hA : tryInfoCd (c :: rest) with
      | some v => simp [firstCdMatch, hA]
      | none =>
        cases hB : tryCd (c :: rest) with
        | some v => simp [firstCdMatch, hA, hB]
        | none =>
          rw [show firstCdMatch (c :: rest) = firstCdMatch rest from by
            simp [firstCdMatch, hA, hB]]
          rcases List.suffix_cons_iff.mp ht with hEq | ht'
          · subst hEq
            have := (tryCd_isSome_iff (c :: rest)).mpr hshape
            rw [hB] at this
            simp at this
          · exact ih.mpr ⟨t, ht', hshape⟩

/-- The claim's whole-line shape for the `cd` tail: at least one whitespace
character after `cd`, then a non-empty path occupying the rest of the line. -/
def restIsWsThenPath (l : List Char) : Bool :=
  decide (1 ≤ (l.takeWhile jsWs).length ∧ (l.takeWhile jsWs).length < l.length)

/-- The claim's whole-line shape starting at `cd`. -/
def formCd : List Char → Bool
  | c :: d :: rest =>
    (c.toLower == 'c') && (d.toLower == 'd') && restIsWsThenPath rest
  | _ => false

/-- The claimed form of a directory-hint line, written from the claim's own
words: an optional leading marker word (a maximal non-whitespace token)
followed by whitespace, then the literal token `cd`, whitespace, and a path
occupying the rest of the line. -/
def hasClaimedForm (l : List Char) : Bool :=
  formCd l ||
  (!(l.takeWhile fun c => !jsWs c).isEmpty &&
   !((l.dropWhile fun c => !jsWs c).takeWhile jsWs).isEmpty &&
   formCd ((l.dropWhile fun c => !jsWs c).dropWhile jsWs))

/-- C8 (counterexample): the regex of `parseOutputForCd` is unanchored, so
the line `abcd efg` — which does not have the claimed form marker+`cd`+path
— still yields the hint `efg` (the match starts in the middle of the token
`abcd`).  The claimed if-and-only-if fails at this line. -/
theorem parseOutputForCd_unanchored :
    parseOutputForCd ("abcd efg".toList) = some ("efg".toList) ∧
    hasClaimedForm ("abcd efg".toList) = false ∧
    ¬ (((parseOutputForCd ("abcd efg".toList)).isSome = true) ↔
        hasClaimedForm ("abcd efg".toList) = true) := by
  exact ⟨by decide, by decide, by decide⟩

/-- C8 (amended): a line yields a directory hint if and only if it contains
— at any position, not only at the start or after one marker word —
case-insensitive `cd` followed by at least one whitespace character and then
a non-empty remainder that reaches the end of the line and is free of line
terminators (the regex `.` excludes CR and LF, so a lone `\r` after the
candidate path's start defeats the match); the hint is produced from the
leftmost such match, trimmed, with surrounding quotes stripped.  The closing
conjuncts evaluate a marker-word line with a quoted path as the original
claim describes, and show that CR-containing tails yield no hint. -/
theorem parseOutputForCd_characterization :
    (∀ l : List Char,
      ((parseOutputForCd l).isSome = true ↔ ∃ t, t <:+ l ∧ CdShape t)) ∧
    parseOutputForCd ("INFO cd \"my dir\"".toList) = some ("my dir".toList) ∧
    parseOutputForCd ("cd a\rb".toList) = none ∧
    parseOutputForCd ("cd \r".toList) = none := by
  refine ⟨fun l => ?_, by decide, by decide, by decide⟩
  rw [show (parseOutputForCd l).isSome = (firstCdMatch l).isSome from by
    simp [parseOutputForCd]]
  exact firstCdMatch_isSome_iff l

/-! ## Spawn environment (`main.ts` lines 616-620) -/

/-- The options passed to `spawn` by the streaming handler. -/
structure SpawnOptions where
  cwd : Option (List Char)
  env : List (String × String)
  useShell : Bool
  deriving DecidableEq

/-- JavaScript `a || b` on an optional string: an empty string is falsy. -/
def jsOrStr : Option (List Char) → Option (List Char) → Option (List Char)
  | some s, b => if s.isEmpty then b else some s
  | none, b => b

/-- Spawn options, `main.ts` lines 613-620: `cwd = workingDirectory || customWorkingDir ||
undefined`, `env: process.env`, `shell: true`.  The options are built
identically on every platform; the ambient environment is passed through
unmodified. -/
def mkSpawnOptions (workingDirectory customWorkingDir : Option (List Char))
    (ambient : List (String × String)) : SpawnOptions :=
  { cwd := jsOrStr workingDirectory (jsOrStr customWorkingDir none),
    env := ambient,
    useShell := true }

def envLookup (env : List (String × String)) (k : String) : Option String :=
  (env.find? fun p => p.1 == k).map Prod.snd

/-- Split a search-path string on `:`. -/
def splitColon : List Char → List (List Char)
  | [] => [[]]
  | c :: rest => if c = ':' then [] :: splitColon rest else consHead c (splitColon rest)

/-- Rejoin search-path entries with `:`. -/
def joinColon : List (List Char) → List Char
  | [] => []
  | [x] => x
  | x :: xs => x ++ ':' :: joinColon xs

/-- Remove duplicates keeping the first occurrence of each entry. -/
def dedupFirst : List (List Char) → List (List Char)
  | [] => []
  | x :: xs => x :: dedupFirst (xs.filter fun y => y != x)
termination_by l => l.length
decreasing_by
  simp only [List.length_cons]
  exact Nat.lt_succ_of_le (List.length_filter_le _ _)

/-- The claim, written from the spec's words: there is a fixed non-trivial
ordered list of known install directories that, on the platform with the
decentralized install-prefix convention, is prepended to the spawned
process's search path with duplicates removed and first-occurrence order
preserved. -/
def ClaimC9 : Prop :=
  ∃ dirs : List (List Char), dirs ≠ [] ∧ (∀ d ∈ dirs, d ≠ []) ∧
    ∀ (wd cw : Option (List Char)) (ambient : List (String × String))
      (p : List Char),
      envLookup ambient "PATH" = some (String.mk p) →
      envLookup (mkSpawnOptions wd cw ambient).env "PATH" =
        some (String.mk (joinColon (dedupFirst (dirs ++ splitColon p))))

theorem joinColon_cons_ne_nil (d : List Char) (rest : List (List Char))
    (h : d ≠ []) : joinColon (d :: rest) ≠ [] := by
  cases rest with
  | nil => simpa [joinColon] using h
  | cons x xs =>
    rw [show joinColon (d :: x :: xs) = d ++ ':' :: joinColon (x :: xs) from rfl]
    intro hEq
    exact h (List.append_eq_nil.mp hEq).1

/-- C9 (counterexample): no such augmentation exists in the code — the
spawn options carry `process.env` unchanged, so for an ambient environment
whose search path is empty the spawned path is still empty, while the
claimed prepending would make it non-empty. -/
theorem spawnEnv_not_augmented : ¬ ClaimC9 := by
  rintro ⟨dirs, hne, hnonempty, hall⟩
  have h := hall none none [("PATH", "")] [] (by rfl)
  cases dirs with
  | nil => exact hne rfl
  | cons d ds =>
    have hd : d ≠ [] := hnonempty d (List.mem_cons_self _ _)
    rw [show ((d :: ds) ++ splitColon [] : List (List Char))
          = d :: (ds ++ [[]]) from rfl,
      show dedupFirst (d :: (ds ++ [[]]))
          = d :: dedupFirst ((ds ++ [[]]).filter fun y => y != d) from by
        simp [dedupFirst]] at h
    have hLHS : envLookup (mkSpawnOptions none none [("PATH", "")]).env "PATH" =
        some "" := rfl
    rw [hLHS] at h
    have hstr : ("" : String) = String.mk (joinColon (d ::
        dedupFirst ((ds ++ [[]]).filter fun y => y != d))) :=
      Option.some.inj h
    have h2 : ([] : List Char) = joinColon (d ::
        dedupFirst ((ds ++ [[]]).filter fun y => y != d)) := congrArg String.data hstr
    exact joinColon_cons_ne_nil d _ hd h2.symm

/-- C9 (amended): the environment mapping passed to the spawned process is
the ambient process environment, unmodified, for every combination of
working-directory overrides; in particular the search-path entry is
unchanged. -/
theorem spawnEnv_ambient (wd cw : Option (List Char))
    (ambient : List (String × String)) :
    (mkSpawnOptions wd cw ambient).env = ambient ∧
    envLookup (mkSpawnOptions wd cw ambient).env "PATH" =
      envLookup ambient "PATH" :=
  ⟨rfl, rfl⟩
